import Mathlib

/-!
Verification development for `CleanDataFunction.py`, a CSV pre-ingestion
cleaning gate.  The Python source is shallowly embedded: pandas cell values
become the inductive type `Value`, a dataframe becomes a list of rows plus a
per-column (name, dtype == object) list, and the pure text functions
`clean_text` / `detect_unclenable_chars` / `has_unclenable_chars` /
`process_dataframe` are translated directly.
-/

namespace CleanData

/-- Python whitespace, exactly the set of code points `c` with
`str.isspace()` true in CPython 3 (the set `str.split()` splits on):
TAB LF VT FF CR, FS GS RS US, SPACE, NEL, NBSP, OGHAM SPACE MARK,
EN QUAD .. HAIR SPACE, LINE SEP, PARA SEP, NNBSP, MMSP, IDEOGRAPHIC SPACE. -/
def pyIsSpace (c : Char) : Bool :=
  c.toNat = 0x9 || c.toNat = 0xA || c.toNat = 0xB || c.toNat = 0xC ||
  c.toNat = 0xD || c.toNat = 0x1C || c.toNat = 0x1D || c.toNat = 0x1E ||
  c.toNat = 0x1F || c.toNat = 0x20 || c.toNat = 0x85 || c.toNat = 0xA0 ||
  c.toNat = 0x1680 || (0x2000 ≤ c.toNat && c.toNat ≤ 0x200A) ||
  c.toNat = 0x2028 || c.toNat = 0x2029 || c.toNat = 0x202F ||
  c.toNat = 0x205F || c.toNat = 0x3000

/-- Whether the first list is an initial segment of the second
(char-level analogue of Python `str.startswith`). -/
def leadsWith : List Char → List Char → Bool
  | [], _ => true
  | _ :: _, [] => false
  | p :: ps, c :: cs => p == c && leadsWith ps cs

/-- Whether `pat` occurs as a contiguous run inside `l`
(char-level analogue of Python `pat in l`). -/
def containsSeq (pat : List Char) : List Char → Bool
  | [] => pat.isEmpty
  | c :: cs => leadsWith pat (c :: cs) || containsSeq pat cs

/-- Fuel-driven worker for `replaceList`; the fuel only serves to make the
recursion structural, `replaceList` always supplies enough. -/
def replaceGo (old new : List Char) : Nat → List Char → List Char
  | _, [] => []
  | 0, l => l
  | fuel + 1, c :: cs =>
    if leadsWith old (c :: cs) && !old.isEmpty then
      new ++ replaceGo old new fuel (List.drop (old.length - 1) cs)
    else
      c :: replaceGo old new fuel cs

/-- Python `str.replace(old, new)` at character-list level: replace
non-overlapping occurrences of `old` left to right.  (For `old = []` this
returns the input unchanged; the source only ever calls it with non-empty
`old`, so the Python empty-pattern corner case is irrelevant.) -/
def replaceList (old new l : List Char) : List Char :=
  replaceGo old new l.length l

/-- The 44-character accidental dict key produced by the triple-quoted
string in the source (see `CLEANABLE_CHARS`). -/
def weirdKey : List Char :=
  [ ':', ' ', '\x22', '\x27', '\x22', ',', ' ', ' ', ' ', ' ', ' ',
    ' ', ' ', ' ', ' ', ' ', '#', ' ', 'S', 'm', 'a', 'r',
    't', ' ', 'a', 'p', 'o', 's', 't', 'r', 'o', 'p', 'h',
    'e', ' ', 'l', 'e', 'f', 't', '\n', ' ', ' ', ' ', ' ' ]

/-- `CLEANABLE_CHARS` exactly as CPython evaluates the source dict literal.
The literal has 12 key/value pairs, but two of them use the same ASCII
double-quote key (the intended smart quotes are plain `"` in the file), so
the runtime dict has 11 entries: the duplicate keeps its first position and
the (identical) later value.  Moreover the two "smart apostrophe" lines
start with three consecutive apostrophes, which Python reads as a
triple-quoted string: the resulting single key is the 44-character string
`: "person-quote",` + ten spaces + `# Smart apostrophe left` + newline +
four spaces, mapping to an ASCII apostrophe. -/
def CLEANABLE_CHARS : List (List Char × List Char) :=
  [ (['™'], []),                        -- Trademark -> removed
    (['®'], []),                        -- Registered -> removed
    (['©'], []),                        -- Copyright -> removed
    (['"'], ['"']),                          -- ASCII quote -> itself
    (weirdKey, ['\x27']),
    (['–'], ['-']),                     -- En dash
    (['—'], ['-']),                     -- Em dash
    (['…'], ['.', '.', '.']),           -- Ellipsis
    (['\u200B'], []),                  -- Zero-width space
    (['\uFEFF'], []),                  -- BOM
    (['_'], [' ']) ]                         -- Underscore to space

/-- The replacement loop of `clean_text`: apply every `CLEANABLE_CHARS`
entry as a literal substring replacement, in dict (insertion) order. -/
def applyCleanable (l : List Char) : List Char :=
  CLEANABLE_CHARS.foldl (fun acc p => replaceList p.1 p.2 acc) l

/-- Worker for `pyWords`: `cur` is the current in-progress word, reversed. -/
def wordsAux : List Char → List Char → List (List Char)
  | cur, [] => if cur.isEmpty then [] else [cur.reverse]
  | cur, c :: cs =>
    if pyIsSpace c then
      if cur.isEmpty then wordsAux [] cs else cur.reverse :: wordsAux [] cs
    else
      wordsAux (c :: cur) cs

/-- Python `str.split()` with no argument: maximal runs of non-whitespace
characters; leading, trailing and repeated whitespace produce no empty
words. -/
def pyWords (l : List Char) : List (List Char) :=
  wordsAux [] l

/-- Python `' '.join(words)`: concatenate with a single ASCII space. -/
def joinWords : List (List Char) → List Char
  | [] => []
  | [w] => w
  | w :: ws => w ++ ' ' :: joinWords ws

/-- Python `str.strip()`: drop whitespace from both ends. -/
def pyStrip (l : List Char) : List Char :=
  (((l.dropWhile pyIsSpace).reverse.dropWhile pyIsSpace)).reverse

/-- The whitespace normalization step `' '.join(text.split())` followed by
`.strip()` from `clean_text`. -/
def normalizeWS (l : List Char) : List Char :=
  pyStrip (joinWords (pyWords l))

/-- Whole-string cleaning pipeline of `clean_text` on an already-coerced
string: dict replacements, then whitespace collapse and strip. -/
def cleanChars (l : List Char) : List Char :=
  normalizeWS (applyCleanable l)

/-- A pandas cell value as it matters to this program: missing (`NaN` /
`None`), a Python `str`, or any other non-missing object carrying its
`str(v)` rendering. -/
inductive Value where
  | na : Value
  | str (s : String) : Value
  | other (reprText : String) : Value
deriving DecidableEq

/-- Python `str(v)` on a cell value; `str(float('nan'))` is `"nan"`. -/
def str_of : Value → String
  | Value.na => "nan"
  | Value.str s => s
  | Value.other r => r

/-- Whether the cell is missing (`pd.isna(v) or v is None`). -/
def Value.isNa : Value → Bool
  | Value.na => true
  | _ => false

/-- Whether the cell is a Python `str` instance. -/
def Value.isStr : Value → Bool
  | Value.str _ => true
  | _ => false

/-- `clean_text(text)`: empty string on missing values, otherwise coerce to
text, apply every `CLEANABLE_CHARS` replacement in order, collapse
whitespace runs to single spaces and strip the ends. -/
def clean_text (v : Value) : String :=
  match v with
  | Value.na => ""
  | _ => (cleanChars (str_of v).toList).asString

/-- One named unclenable-character rule: each of the seven source regexes
is a character class, embedded as a per-character test. -/
structure UnclenableRule where
  name : String
  matchesChar : Char → Bool
  description : String
  exampleText : String

/-- `UNCLENABLE_PATTERNS`, in source dict order.  Each `matchesChar` field is
the character class of the corresponding regex. -/
def UNCLENABLE_PATTERNS : List UnclenableRule :=
  [ ⟨"null_char", fun c => c.toNat = 0x0,
      "NULL character - Binary data corruption", "\\x00"⟩,
    ⟨"control_chars",
      fun c => (0x1 ≤ c.toNat && c.toNat ≤ 0x8) || c.toNat = 0xB ||
               c.toNat = 0xC || (0xE ≤ c.toNat && c.toNat ≤ 0x1F),
      "Control characters - Mainframe/Legacy system artifacts", "\\x01-\\x1F"⟩,
    ⟨"escape_char", fun c => c.toNat = 0x1B,
      "Escape character - Terminal sequences", "\\x1B"⟩,
    ⟨"ebcdic_newline", fun c => c.toNat = 0x85,
      "EBCDIC Newline - Mainframe data", "\\x85"⟩,
    ⟨"ebcdic_artifacts",
      fun c => c.toNat = 0x8D || c.toNat = 0x8F || c.toNat = 0x90 ||
               c.toNat = 0x9D,
      "EBCDIC conversion artifacts - Mainframe migration issue",
      "\\x8D, \\x8F, etc."⟩,
    ⟨"replacement_char", fun c => c.toNat = 0xFFFD,
      "Replacement character - Encoding error (data loss)", "�"⟩,
    ⟨"private_use", fun c => 0xE000 ≤ c.toNat && c.toNat ≤ 0xF8FF,
      "Private Use Area - Custom/proprietary characters", "Private Unicode"⟩ ]

/-- One entry of the issue list returned by `detect_unclenable_chars`.
`found_chars` holds the first three matched characters (the Python source
stores `repr(m)` of each; the rendering is presentation only). -/
structure Issue where
  type : String
  description : String
  exampleText : String
  count : Nat
  found_chars : List Char
deriving DecidableEq

/-- `detect_unclenable_chars(text)`: empty list on missing values,
otherwise for each rule collect all matches (`re.findall` of a character
class = the characters of the text in that class); rules with at least one
match contribute one `Issue` in rule order. -/
def detect_unclenable_chars (v : Value) : List Issue :=
  match v with
  | Value.na => []
  | _ =>
    UNCLENABLE_PATTERNS.filterMap (fun rule =>
      let ms := (str_of v).toList.filter rule.matchesChar
      if ms.isEmpty then none
      else some ⟨rule.name, rule.description, rule.exampleText,
                 ms.length, ms.take 3⟩)

/-- `has_unclenable_chars(text)`: whether the issue list is non-empty. -/
def has_unclenable_chars (v : Value) : Bool :=
  !(detect_unclenable_chars v).isEmpty

/-- A parsed dataframe: for each column its header name and whether its
dtype is `object` (pandas string-bearing dtype), and the rows in order.
`pd.read_csv` yields a default integer index, so the original index of a
row is its position. -/
structure DataFrame where
  cols : List (String × Bool)
  rows : List (List Value)

/-- One entry of a dirty row's `problems` list: offending column, its value
truncated to 100 characters, and the detected issues. -/
structure ColIssue where
  column : String
  value : String
  issues : List Issue
deriving DecidableEq

/-- One entry of `dirty_row_details`. -/
structure RowDetail where
  row_number : Nat
  row_data : List (String × String)
  problems : List ColIssue
deriving DecidableEq

/-- One entry of `column_analysis`. -/
structure ColReport where
  type : String
  had_unclenable_chars : Bool
deriving DecidableEq

/-- The per-row scan of `process_dataframe`: for each column, a cell that
is non-missing and a `str` instance is run through
`detect_unclenable_chars`; non-empty issue lists are collected with the
column name and the value truncated to 100 characters. -/
def row_issues (df : DataFrame) (r : List Value) : List ColIssue :=
  (df.cols.zip r).filterMap (fun p =>
    match p.2 with
    | Value.str s =>
      let issues := detect_unclenable_chars (Value.str s)
      if issues.isEmpty then none else some ⟨p.1.1, s.take 100, issues⟩
    | _ => none)

/-- A row is dirty when some cell yields issues. -/
def rowIsDirty (df : DataFrame) (r : List Value) : Bool :=
  !(row_issues df r).isEmpty

/-- `row_data` of a dirty-row detail: every column value stringified and
truncated to 50 characters. -/
def rowData (df : DataFrame) (r : List Value) : List (String × String) :=
  (df.cols.zip r).map (fun p => (p.1.1, (str_of p.2).take 50))

/-- Normalization of a clean row: cells of `object`-dtype columns get
`clean_text` applied (becoming strings), other cells are untouched. -/
def normalizeRow (df : DataFrame) (r : List Value) : List Value :=
  List.zipWith (fun cb v => if cb.2 then Value.str (clean_text v) else v)
    df.cols r

/-- The cells present in column `j`, top to bottom. -/
def colValues (df : DataFrame) (j : Nat) : List Value :=
  df.rows.filterMap (fun r => r.get? j)

/-- The column-analysis test for column `j`:
`any(has_unclenable_chars(str(v)) for v in df[col].dropna())`. -/
def colHasIssues (df : DataFrame) (j : Nat) : Bool :=
  ((colValues df j).filter (fun v => !v.isNa)).any
    (fun v => has_unclenable_chars (Value.str (str_of v)))

/-- The four artifacts returned by `process_dataframe`.  `clean_df` and
`dirty_df` keep each row's original index label. -/
structure ProcessResult where
  clean_df : List (Nat × List Value)
  dirty_df : List (Nat × List Value)
  dirty_row_details : List RowDetail
  column_analysis : List (String × ColReport)

/-- `process_dataframe(df, file_name)`: partition rows by dirtiness
(`df.drop(dirty_row_indices)` keeps exactly the non-dirty rows in order,
`df.loc[dirty_row_indices]` the dirty ones in order), normalize the clean
rows column-wise on `object` columns, record a detail per dirty row
(`row_number = idx + 2` accounts for the header and 0-indexing), and
analyze every `object` column of the original dataframe.  Columns whose
dtype is not `object` get no `column_analysis` entry. -/
def process_dataframe (df : DataFrame) : ProcessResult :=
  let indexed := df.rows.enum
  let dirty := indexed.filter (fun p => rowIsDirty df p.2)
  let clean := indexed.filter (fun p => !rowIsDirty df p.2)
  { clean_df := clean.map (fun p => (p.1, normalizeRow df p.2)),
    dirty_df := dirty,
    dirty_row_details :=
      dirty.map (fun p => ⟨p.1 + 2, rowData df p.2, row_issues df p.2⟩),
    column_analysis :=
      df.cols.enum.filterMap (fun q =>
        if q.2.2 then some (q.2.1, ⟨"string", colHasIssues df q.1⟩)
        else none) }

/-- The success payload of the HTTP handler (transport fields such as the
file name, the base64 CSV and the timestamp belong to the boundary layer
and carry no decision logic). -/
structure SuccessBody where
  originalRowCount : Nat
  cleanRowCount : Nat
  dirtyRowCount : Nat
  hasDirtyRows : Bool
  dirtyRowDetails : List RowDetail
  columnAnalysis : List (String × ColReport)

/-- Outcome of one handler invocation: a 200 SUCCESS body or a 500 ERROR
envelope with a message. -/
inductive HttpOutcome where
  | success (body : SuccessBody) : HttpOutcome
  | error (msg : String) : HttpOutcome

/-- The `CleanDataFunction` handler after request decoding: its `try`
block parses the input into a dataframe (any base64/CSV failure raises and
reaches the `except` arm, which returns the ERROR envelope untouched by
any row logic), then processes and reports counts. -/
def CleanDataFunction (parsed : Except String DataFrame) : HttpOutcome :=
  match parsed with
  | Except.error e => HttpOutcome.error e
  | Except.ok df =>
    let R := process_dataframe df
    HttpOutcome.success
      { originalRowCount := df.rows.length,
        cleanRowCount := R.clean_df.length,
        dirtyRowCount := R.dirty_df.length,
        hasDirtyRows := decide (0 < R.dirty_df.length),
        dirtyRowDetails := R.dirty_row_details,
        columnAnalysis := R.column_analysis }

/-- Two-row dataframe with one clean and one dirty row, used to
instantiate the partition theorem. -/
def dfC1w : DataFrame :=
  ⟨[("a", true)], [[Value.str "ok"], [Value.str "a\x00b"]]⟩

/-- Dataframe with one non-string (numeric) column: the column report of
the source omits it. -/
def dfC2x : DataFrame :=
  ⟨[("n", false)], [[Value.other "1"]]⟩

/-- Dataframe with one clean string column, used to instantiate the
amended column-report theorem. -/
def dfC2w : DataFrame :=
  ⟨[("a", true)], [[Value.str "x"]]⟩

/-- Dataframe with a clean row and a dirty row over a string and a numeric
column, used to instantiate the frame theorem. -/
def dfC3w : DataFrame :=
  ⟨[("a", true), ("n", false)],
    [[Value.str "x_y", Value.other "1"], [Value.str "a\x00", Value.other "2"]]⟩

/-- Single-row dataframe whose only cell contains a NUL byte. -/
def dfC6w : DataFrame :=
  ⟨[("a", true)], [[Value.str "abc\x00def"]]⟩

/-- Two-row dataframe whose string column has one clean and one corrupt
value. -/
def dfC8w : DataFrame :=
  ⟨[("a", true)], [[Value.str "ab"], [Value.str "\x00"]]⟩

/-- Dataframe whose single row is dirty, so the handler succeeds with zero
clean rows. -/
def dfC9w : DataFrame :=
  ⟨[("a", true)], [[Value.str "\x00"]]⟩

/-- Dataframe whose rows hold no `str` instance at all. -/
def dfC10a : DataFrame :=
  ⟨[("a", true)], [[Value.other "x"], [Value.na]]⟩

/-- Dataframe whose `object` column holds a non-string object that
stringifies to a NUL byte: the row scan skips it (not a `str`), the column
analysis stringifies and flags it. -/
def dfC10b : DataFrame :=
  ⟨[("a", true)], [[Value.other "\x00"]]⟩

/-- Adjacent-character relation used to state that a whitespace-collapsed
string never has two spaces in a row. -/
def noTwoSpaces (a b : Char) : Prop := ¬(a = ' ' ∧ b = ' ')

/-! ### Lemmas about the replacement machinery -/

theorem replaceGo_fuel (old new : List Char) :
    ∀ (f₁ f₂ : Nat) (l : List Char), l.length ≤ f₁ → l.length ≤ f₂ →
      replaceGo old new f₁ l = replaceGo old new f₂ l := by
  intro f₁
  induction f₁ with
  | zero =>
    intro f₂ l h1 _
    cases l with
    | nil => cases f₂ <;> rfl
    | cons c cs => simp at h1
  | succ f ih =>
    intro f₂ l h1 h2
    cases l with
    | nil => cases f₂ <;> rfl
    | cons c cs =>
      cases f₂ with
      | zero => simp at h2
      | succ g =>
        simp only [List.length_cons, Nat.add_le_add_iff_right] at h1 h2
        simp only [replaceGo]
        by_cases hc : (leadsWith old (c :: cs) && !old.isEmpty) = true
        · rw [if_pos hc, if_pos hc]
          congr 1
          exact ih g _ (le_trans (by simp [List.length_drop]) h1)
            (le_trans (by simp [List.length_drop]) h2)
        · rw [if_neg hc, if_neg hc]
          congr 1
          exact ih g cs h1 h2

theorem replaceList_nil (old new : List Char) : replaceList old new [] = [] := by
  rfl

theorem replaceList_cons (old new : List Char) (c : Char) (cs : List Char) :
    replaceList old new (c :: cs) =
      if leadsWith old (c :: cs) && !old.isEmpty then
        new ++ replaceList old new (List.drop (old.length - 1) cs)
      else
        c :: replaceList old new cs := by
  show replaceGo old new (cs.length + 1) (c :: cs) = _
  simp only [replaceGo]
  by_cases hc : (leadsWith old (c :: cs) && !old.isEmpty) = true
  · rw [if_pos hc, if_pos hc]
    congr 1
    exact replaceGo_fuel old new _ _ _ (by simp [List.length_drop]) le_rfl
  · rw [if_neg hc, if_neg hc]
    rfl

theorem mem_replaceList {c : Char} (old new : List Char) :
    ∀ (l : List Char), c ∈ replaceList old new l → c ∈ l ∨ c ∈ new := by
  have H : ∀ (n : Nat) (l : List Char), l.length ≤ n →
      c ∈ replaceList old new l → c ∈ l ∨ c ∈ new := by
    intro n
    induction n with
    | zero =>
      intro l hl hm
      cases l with
      | nil => simp [replaceList_nil] at hm
      | cons a as => simp at hl
    | succ n ih =>
      intro l hl hm
      cases l with
      | nil => simp [replaceList_nil] at hm
      | cons a as =>
        simp only [List.length_cons, Nat.add_le_add_iff_right] at hl
        rw [replaceList_cons] at hm
        by_cases hc : (leadsWith old (a :: as) && !old.isEmpty) = true
        · rw [if_pos hc] at hm
          rcases List.mem_append.mp hm with h | h
          · exact Or.inr h
          · rcases ih _ (le_trans (by simp [List.length_drop]) hl) h with h2 | h2
            · exact Or.inl (List.mem_cons_of_mem a (List.mem_of_mem_drop h2))
            · exact Or.inr h2
        · rw [if_neg hc] at hm
          rcases List.mem_cons.mp hm with h | h
          · exact Or.inl (h ▸ List.mem_cons_self a as)
          · rcases ih as hl h with h2 | h2
            · exact Or.inl (List.mem_cons_of_mem a h2)
            · exact Or.inr h2
  intro l
  exact H l.length l le_rfl

theorem leadsWith_single (k c : Char) (cs : List Char) :
    leadsWith [k] (c :: cs) = (k == c) := by
  simp [leadsWith]

theorem replaceList_single (k : Char) (new : List Char) :
    ∀ (l : List Char), replaceList [k] new l =
      l.flatMap (fun c => if c = k then new else [c]) := by
  intro l
  induction l with
  | nil => simp [replaceList_nil]
  | cons c cs ih =>
    rw [replaceList_cons, List.flatMap_cons, leadsWith_single]
    by_cases hk : k = c
    · subst hk
      simp [ih]
    · simp [ih, hk, Ne.symm hk]

theorem not_mem_replaceList_single {k : Char} {new : List Char}
    (hk : k ∉ new) (l : List Char) : k ∉ replaceList [k] new l := by
  rw [replaceList_single]
  simp only [List.mem_flatMap]
  rintro ⟨a, _, hmem⟩
  by_cases h : a = k
  · rw [if_pos h] at hmem; exact hk hmem
  · rw [if_neg h] at hmem
    exact h (List.mem_singleton.mp hmem).symm

theorem replaceList_single_id (k : Char) (new : List Char) :
    ∀ (l : List Char), k ∉ l → replaceList [k] new l = l := by
  intro l
  induction l with
  | nil => intro _; exact replaceList_nil _ _
  | cons a as ih =>
    intro hk
    have ha : ¬((k == a) && !List.isEmpty [k]) = true := by
      simp only [List.isEmpty_cons, Bool.not_false, Bool.and_true]
      simp only [beq_iff_eq]
      intro h
      exact hk (h ▸ List.mem_cons_self a as)
    rw [replaceList_cons, leadsWith_single, if_neg ha]
    have : replaceList [k] new as = as :=
      ih (fun h => hk (List.mem_cons_of_mem a h))
    rw [this]

theorem replaceList_single_self (k : Char) (l : List Char) :
    replaceList [k] [k] l = l := by
  rw [replaceList_single]
  induction l with
  | nil => rfl
  | cons a as ih =>
    simp only [List.flatMap_cons, ih]
    by_cases h : a = k
    · subst h; simp
    · rw [if_neg h]; rfl

theorem leadsWith_iff (p : List Char) :
    ∀ (l : List Char), leadsWith p l = true ↔ ∃ t, l = p ++ t := by
  induction p with
  | nil =>
    intro l
    simp [leadsWith]
  | cons a ps ih =>
    intro l
    cases l with
    | nil =>
      simp [leadsWith]
    | cons c cs =>
      simp only [leadsWith, Bool.and_eq_true, beq_iff_eq, ih, List.cons_append,
        List.cons.injEq]
      constructor
      · rintro ⟨rfl, t, rfl⟩
        exact ⟨t, rfl, rfl⟩
      · rintro ⟨t, rfl, rfl⟩
        exact ⟨rfl, t, rfl⟩

theorem containsSeq_iff (pat : List Char) :
    ∀ (l : List Char), containsSeq pat l = true ↔
      ∃ pre post, l = pre ++ (pat ++ post) := by
  intro l
  induction l with
  | nil =>
    simp only [containsSeq, List.isEmpty_iff]
    constructor
    · rintro rfl
      exact ⟨[], [], rfl⟩
    · rintro ⟨pre, post, h⟩
      rcases List.append_eq_nil.mp h.symm with ⟨rfl, h2⟩
      exact (List.append_eq_nil.mp h2).1
  | cons c cs ih =>
    simp only [containsSeq, Bool.or_eq_true, leadsWith_iff, ih]
    constructor
    · rintro (⟨t, ht⟩ | ⟨pre, post, h⟩)
      · exact ⟨[], t, by simp [ht]⟩
      · exact ⟨c :: pre, post, by simp [h]⟩
    · rintro ⟨pre, post, h⟩
      cases pre with
      | nil =>
        exact Or.inl ⟨post, by simpa using h⟩
      | cons x xs =>
        simp only [List.cons_append, List.cons.injEq] at h
        exact Or.inr ⟨xs, post, h.2⟩

theorem containsSeq_trans {inner pat l : List Char}
    (h1 : containsSeq inner pat = true) (h2 : containsSeq pat l = true) :
    containsSeq inner l = true := by
  rcases (containsSeq_iff pat l).mp h2 with ⟨pre, post, rfl⟩
  rcases (containsSeq_iff inner pat).mp h1 with ⟨a, b, rfl⟩
  exact (containsSeq_iff inner _).mpr ⟨pre ++ a, b ++ post, by simp⟩

theorem replaceList_id_of_not_contains {old new : List Char} :
    ∀ (l : List Char), containsSeq old l = false → replaceList old new l = l := by
  have H : ∀ (n : Nat) (l : List Char), l.length ≤ n →
      containsSeq old l = false → replaceList old new l = l := by
    intro n
    induction n with
    | zero =>
      intro l hl _
      cases l with
      | nil => exact replaceList_nil _ _
      | cons a as => simp at hl
    | succ n ih =>
      intro l hl hc
      cases l with
      | nil => exact replaceList_nil _ _
      | cons a as =>
        simp only [List.length_cons, Nat.add_le_add_iff_right] at hl
        simp only [containsSeq, Bool.or_eq_false_iff] at hc
        rw [replaceList_cons, if_neg (by simp [hc.1]), ih as hl hc.2]
  intro l
  exact H l.length l le_rfl

theorem not_mem_foldl_replace {k : Char} :
    ∀ (rules : List (List Char × List Char)) (l : List Char),
      k ∉ l → (∀ p ∈ rules, k ∉ p.2) →
      k ∉ rules.foldl (fun acc p => replaceList p.1 p.2 acc) l := by
  intro rules
  induction rules with
  | nil =>
    intro l hl _
    exact hl
  | cons r rs ih =>
    intro l hl hr
    simp only [List.foldl_cons]
    apply ih
    · intro hmem
      rcases mem_replaceList r.1 r.2 l hmem with h | h
      · exact hl h
      · exact hr r (List.mem_cons_self r rs) h
    · intro p hp
      exact hr p (List.mem_cons_of_mem r hp)

/-! ### Lemmas about the whitespace-collapse machinery -/

theorem wordsAux_append (w : List Char) :
    ∀ (cur rest : List Char), (∀ c ∈ w, pyIsSpace c = false) →
      wordsAux cur (w ++ rest) = wordsAux (w.reverse ++ cur) rest := by
  induction w with
  | nil => intro cur rest _; simp
  | cons c w' ih =>
    intro cur rest h
    have hc : pyIsSpace c = false := h c (List.mem_cons_self _ _)
    show wordsAux cur (c :: (w' ++ rest)) = _
    simp only [wordsAux, hc, Bool.false_eq_true, if_false]
    rw [ih (c :: cur) rest (fun x hx => h x (List.mem_cons_of_mem _ hx))]
    simp [List.append_assoc]

theorem wordsAux_good :
    ∀ (l cur : List Char), (∀ c ∈ cur, pyIsSpace c = false) →
      ∀ w ∈ wordsAux cur l, w ≠ [] ∧ ∀ c ∈ w, pyIsSpace c = false := by
  intro l
  induction l with
  | nil =>
    intro cur hcur w hw
    simp only [wordsAux] at hw
    by_cases hc : cur.isEmpty
    · rw [if_pos hc] at hw; simp at hw
    · rw [if_neg hc] at hw
      rcases List.mem_singleton.mp hw with rfl
      refine ⟨?_, fun c hcmem => hcur c (List.mem_reverse.mp hcmem)⟩
      intro h
      apply hc
      rw [List.isEmpty_iff]
      simpa using congrArg List.reverse h
  | cons a as ih =>
    intro cur hcur w hw
    simp only [wordsAux] at hw
    by_cases ha : pyIsSpace a = true
    · rw [if_pos ha] at hw
      by_cases hc : cur.isEmpty
      · rw [if_pos hc] at hw
        exact ih [] (by simp) w hw
      · rw [if_neg hc] at hw
        rcases List.mem_cons.mp hw with rfl | hw2
        · refine ⟨?_, fun c hcmem => hcur c (List.mem_reverse.mp hcmem)⟩
          intro h
          apply hc
          rw [List.isEmpty_iff]
          simpa using congrArg List.reverse h
        · exact ih [] (by simp) w hw2
    · rw [if_neg ha] at hw
      apply ih (a :: cur) _ w hw
      intro c hcmem
      rcases List.mem_cons.mp hcmem with rfl | h2
      · simpa using ha
      · exact hcur c h2

theorem pyWords_good (l : List Char) :
    ∀ w ∈ pyWords l, w ≠ [] ∧ ∀ c ∈ w, pyIsSpace c = false :=
  wordsAux_good l [] (by simp)

theorem pyWords_joinWords :
    ∀ (ws : List (List Char)),
      (∀ w ∈ ws, w ≠ [] ∧ ∀ c ∈ w, pyIsSpace c = false) →
      pyWords (joinWords ws) = ws := by
  intro ws
  induction ws with
  | nil => intro _; rfl
  | cons w ws ih =>
    intro h
    have hw := h w (List.mem_cons_self w ws)
    have hrev : ¬(w.reverse.isEmpty = true) := by
      rw [List.isEmpty_iff]
      intro hr
      exact hw.1 (by simpa using congrArg List.reverse hr)
    cases ws with
    | nil =>
      show wordsAux [] (joinWords [w]) = [w]
      have hj : joinWords [w] = w ++ [] := by simp [joinWords]
      rw [hj, wordsAux_append w [] [] hw.2]
      simp only [wordsAux, List.append_nil]
      rw [if_neg hrev]
      simp
    | cons w' ws' =>
      show wordsAux [] (joinWords (w :: w' :: ws')) = w :: w' :: ws'
      have hj : joinWords (w :: w' :: ws') = w ++ ' ' :: joinWords (w' :: ws') :=
        rfl
      rw [hj, wordsAux_append w [] _ hw.2]
      simp only [List.append_nil, wordsAux]
      rw [if_pos (by decide : pyIsSpace ' ' = true), if_neg hrev,
        List.reverse_reverse]
      congr 1
      exact ih (fun x hx => h x (List.mem_cons_of_mem _ hx))

theorem mem_wordsAux {c : Char} :
    ∀ (l cur w : List Char), w ∈ wordsAux cur l → c ∈ w → c ∈ l ∨ c ∈ cur := by
  intro l
  induction l with
  | nil =>
    intro cur w hw hc
    simp only [wordsAux] at hw
    by_cases hcur : cur.isEmpty
    · rw [if_pos hcur] at hw; simp at hw
    · rw [if_neg hcur] at hw
      rcases List.mem_singleton.mp hw with rfl
      exact Or.inr (List.mem_reverse.mp hc)
  | cons a as ih =>
    intro cur w hw hc
    simp only [wordsAux] at hw
    by_cases ha : pyIsSpace a = true
    · rw [if_pos ha] at hw
      by_cases hcur : cur.isEmpty
      · rw [if_pos hcur] at hw
        rcases ih [] w hw hc with h | h
        · exact Or.inl (List.mem_cons_of_mem _ h)
        · simp at h
      · rw [if_neg hcur] at hw
        rcases List.mem_cons.mp hw with rfl | hw2
        · exact Or.inr (List.mem_reverse.mp hc)
        · rcases ih [] w hw2 hc with h | h
          · exact Or.inl (List.mem_cons_of_mem _ h)
          · simp at h
    · rw [if_neg ha] at hw
      rcases ih (a :: cur) w hw hc with h | h
      · exact Or.inl (List.mem_cons_of_mem _ h)
      · rcases List.mem_cons.mp h with rfl | h2
        · exact Or.inl (List.mem_cons_self _ _)
        · exact Or.inr h2

theorem mem_joinWords {c : Char} :
    ∀ (ws : List (List Char)), c ∈ joinWords ws →
      (∃ w ∈ ws, c ∈ w) ∨ c = ' ' := by
  intro ws
  induction ws with
  | nil => intro h; simp [joinWords] at h
  | cons w ws ih =>
    intro h
    cases ws with
    | nil => exact Or.inl ⟨w, List.mem_cons_self _ _, h⟩
    | cons w' ws' =>
      have h2 : c ∈ w ++ ' ' :: joinWords (w' :: ws') := h
      rcases List.mem_append.mp h2 with h3 | h3
      · exact Or.inl ⟨w, List.mem_cons_self _ _, h3⟩
      · rcases List.mem_cons.mp h3 with rfl | h4
        · exact Or.inr rfl
        · rcases ih h4 with ⟨x, hx, hcx⟩ | hsp
          · exact Or.inl ⟨x, List.mem_cons_of_mem _ hx, hcx⟩
          · exact Or.inr hsp

theorem joinWords_head_not_space (ws : List (List Char))
    (h : ∀ w ∈ ws, w ≠ [] ∧ ∀ c ∈ w, pyIsSpace c = false) :
    joinWords ws = [] ∨
      ∃ c t, joinWords ws = c :: t ∧ pyIsSpace c = false := by
  cases ws with
  | nil => exact Or.inl rfl
  | cons w ws =>
    right
    have hw := h w (List.mem_cons_self _ _)
    rcases hw2 : w with _ | ⟨c, w'⟩
    · exact absurd hw2 hw.1
    · have hc : pyIsSpace c = false := by
        apply hw.2
        rw [hw2]
        exact List.mem_cons_self _ _
      cases ws with
      | nil => exact ⟨c, w', by simp [joinWords, hw2], hc⟩
      | cons w'' ws'' =>
        exact ⟨c, w' ++ ' ' :: joinWords (w'' :: ws''), by simp [joinWords, hw2], hc⟩

theorem joinWords_concat_not_space :
    ∀ (ws : List (List Char)),
      (∀ w ∈ ws, w ≠ [] ∧ ∀ c ∈ w, pyIsSpace c = false) →
      joinWords ws = [] ∨
        ∃ t c, joinWords ws = t ++ [c] ∧ pyIsSpace c = false := by
  intro ws
  induction ws with
  | nil => intro _; exact Or.inl rfl
  | cons w ws ih =>
    intro h
    right
    have hw := h w (List.mem_cons_self _ _)
    cases ws with
    | nil =>
      rcases List.eq_nil_or_concat w with rfl | ⟨t, c, rfl⟩
      · exact absurd rfl hw.1
      · exact ⟨t, c, by simp [joinWords], hw.2 c (by simp)⟩
    | cons w' ws' =>
      rcases ih (fun x hx => h x (List.mem_cons_of_mem _ hx)) with hnil | ⟨t, c, hj, hc⟩
      · exfalso
        have hw' := h w' (List.mem_cons_of_mem _ (List.mem_cons_self _ _))
        cases ws' with
        | nil => exact hw'.1 hnil
        | cons w'' ws'' =>
          have : w' ++ ' ' :: joinWords (w'' :: ws'') = [] := hnil
          simp at this
      · refine ⟨w ++ ' ' :: t, c, ?_, hc⟩
        show w ++ ' ' :: joinWords (w' :: ws') = _
        rw [hj]
        simp

theorem chain'_of_no_space :
    ∀ (w : List Char), (∀ c ∈ w, pyIsSpace c = false) →
      List.Chain' noTwoSpaces w := by
  intro w
  induction w with
  | nil => intro _; simp
  | cons a as ih =>
    intro h
    rw [List.chain'_cons']
    refine ⟨?_, ih (fun c hc => h c (List.mem_cons_of_mem _ hc))⟩
    intro y _ hpair
    have h1 := h a (List.mem_cons_self _ _)
    rw [hpair.1] at h1
    exact absurd h1 (by decide)

theorem joinWords_chain' (ws : List (List Char))
    (h : ∀ w ∈ ws, w ≠ [] ∧ ∀ c ∈ w, pyIsSpace c = false) :
    List.Chain' noTwoSpaces (joinWords ws) := by
  induction ws with
  | nil => simp [joinWords]
  | cons w ws ih =>
    have hw := h w (List.mem_cons_self _ _)
    have hwchain : List.Chain' noTwoSpaces w := chain'_of_no_space w hw.2
    cases ws with
    | nil => exact hwchain
    | cons w' ws' =>
      have hrest := ih (fun x hx => h x (List.mem_cons_of_mem _ hx))
      show List.Chain' noTwoSpaces (w ++ ' ' :: joinWords (w' :: ws'))
      rw [List.chain'_append]
      refine ⟨hwchain, ?_, ?_⟩
      · rw [List.chain'_cons']
        refine ⟨?_, hrest⟩
        intro y hy
        rcases joinWords_head_not_space (w' :: ws')
            (fun x hx => h x (List.mem_cons_of_mem _ hx)) with hnil | ⟨c2, t2, hct, hc2⟩
        · rw [hnil] at hy; simp at hy
        · rw [hct] at hy
          simp only [List.head?_cons, Option.mem_def, Option.some.injEq] at hy
          subst hy
          intro hpair
          rw [hpair.2] at hc2
          exact absurd hc2 (by decide)
      · intro x hx y hy
        simp only [List.head?_cons, Option.mem_def, Option.some.injEq] at hy
        subst hy
        intro hpair
        rcases List.getLast?_eq_some_iff.mp hx with ⟨l2, rfl⟩
        have hxw : x ∈ l2 ++ [x] := by simp
        have h1 := hw.2 x hxw
        rw [hpair.1] at h1
        exact absurd h1 (by decide)

theorem not_containsSeq_double_space {l : List Char}
    (h : List.Chain' noTwoSpaces l) : containsSeq [' ', ' '] l = false := by
  by_contra hc
  rw [Bool.not_eq_false] at hc
  rcases (containsSeq_iff _ l).mp hc with ⟨pre, post, rfl⟩
  rw [List.chain'_append] at h
  have h2 : List.Chain' noTwoSpaces (' ' :: ' ' :: post) := h.2.1
  rw [List.chain'_cons] at h2
  exact h2.1 ⟨rfl, rfl⟩

theorem pyStrip_joinWords (ws : List (List Char))
    (h : ∀ w ∈ ws, w ≠ [] ∧ ∀ c ∈ w, pyIsSpace c = false) :
    pyStrip (joinWords ws) = joinWords ws := by
  unfold pyStrip
  rcases joinWords_head_not_space ws h with hnil | ⟨c, t, hct, hc⟩
  · rw [hnil]; rfl
  · have h1 : (joinWords ws).dropWhile pyIsSpace = joinWords ws := by
      rw [hct]
      exact List.dropWhile_cons_of_neg (by simp [hc])
    rw [h1]
    rcases joinWords_concat_not_space ws h with hnil | ⟨t2, c2, hct2, hc2⟩
    · rw [hnil]; rfl
    · have h2 : (joinWords ws).reverse.dropWhile pyIsSpace = (joinWords ws).reverse := by
        rw [hct2]
        simp only [List.reverse_append, List.reverse_cons, List.reverse_nil,
          List.nil_append, List.singleton_append]
        exact List.dropWhile_cons_of_neg (by simp [hc2])
      rw [h2, List.reverse_reverse]

theorem normalizeWS_eq (l : List Char) :
    normalizeWS l = joinWords (pyWords l) :=
  pyStrip_joinWords (pyWords l) (pyWords_good l)

theorem normalizeWS_idem (l : List Char) :
    normalizeWS (normalizeWS l) = normalizeWS l := by
  rw [normalizeWS_eq l, normalizeWS_eq (joinWords (pyWords l)),
    pyWords_joinWords _ (pyWords_good l)]

/-! ### Idempotence of the cleaning pipeline -/

theorem not_mem_foldl_of_rule (k : Char) (new : List Char) :
    ∀ (rules : List (List Char × List Char)), ([k], new) ∈ rules →
      (∀ p ∈ rules, k ∉ p.2) →
      ∀ l, k ∉ rules.foldl (fun acc p => replaceList p.1 p.2 acc) l := by
  intro rules
  induction rules with
  | nil => intro h; simp at h
  | cons r rs ih =>
    intro hmem hall l
    simp only [List.foldl_cons]
    rcases List.mem_cons.mp hmem with heq | hmem2
    · rw [← heq]
      apply not_mem_foldl_replace rs _ ?_ (fun p hp => hall p (List.mem_cons_of_mem _ hp))
      exact not_mem_replaceList_single (hall _ hmem) _
    · exact ih hmem2 (fun p hp => hall p (List.mem_cons_of_mem _ hp)) _

theorem tm_not_mem_applyCleanable (l : List Char) : '™' ∉ applyCleanable l :=
  not_mem_foldl_of_rule '™' [] CLEANABLE_CHARS (by decide) (by decide) l

theorem reg_not_mem_applyCleanable (l : List Char) : '®' ∉ applyCleanable l :=
  not_mem_foldl_of_rule '®' [] CLEANABLE_CHARS (by decide) (by decide) l

theorem copy_not_mem_applyCleanable (l : List Char) : '©' ∉ applyCleanable l :=
  not_mem_foldl_of_rule '©' [] CLEANABLE_CHARS (by decide) (by decide) l

theorem endash_not_mem_applyCleanable (l : List Char) : '–' ∉ applyCleanable l :=
  not_mem_foldl_of_rule '–' ['-'] CLEANABLE_CHARS (by decide) (by decide) l

theorem emdash_not_mem_applyCleanable (l : List Char) : '—' ∉ applyCleanable l :=
  not_mem_foldl_of_rule '—' ['-'] CLEANABLE_CHARS (by decide) (by decide) l

theorem ellipsis_not_mem_applyCleanable (l : List Char) : '…' ∉ applyCleanable l :=
  not_mem_foldl_of_rule '…' ['.', '.', '.'] CLEANABLE_CHARS (by decide) (by decide) l

theorem zwsp_not_mem_applyCleanable (l : List Char) : '\u200B' ∉ applyCleanable l :=
  not_mem_foldl_of_rule '\u200B' [] CLEANABLE_CHARS (by decide) (by decide) l

theorem bom_not_mem_applyCleanable (l : List Char) : '\uFEFF' ∉ applyCleanable l :=
  not_mem_foldl_of_rule '\uFEFF' [] CLEANABLE_CHARS (by decide) (by decide) l

theorem underscore_not_mem_applyCleanable (l : List Char) : '_' ∉ applyCleanable l :=
  not_mem_foldl_of_rule '_' [' '] CLEANABLE_CHARS (by decide) (by decide) l

theorem mem_normalizeWS {c : Char} {l : List Char} (h : c ∈ normalizeWS l) :
    c ∈ l ∨ c = ' ' := by
  rw [normalizeWS_eq] at h
  rcases mem_joinWords _ h with ⟨w, hw, hcw⟩ | hsp
  · rcases mem_wordsAux l [] w hw hcw with h2 | h2
    · exact Or.inl h2
    · simp at h2
  · exact Or.inr hsp

theorem normalizeWS_chain' (l : List Char) :
    List.Chain' noTwoSpaces (normalizeWS l) := by
  rw [normalizeWS_eq]
  exact joinWords_chain' _ (pyWords_good l)

theorem applyCleanable_normalizeWS_of (x : List Char)
    (h1 : '™' ∉ x) (h2 : '®' ∉ x) (h3 : '©' ∉ x) (h4 : '–' ∉ x)
    (h5 : '—' ∉ x) (h6 : '…' ∉ x) (h7 : '\u200B' ∉ x) (h8 : '\uFEFF' ∉ x)
    (h9 : '_' ∉ x) :
    applyCleanable (normalizeWS x) = normalizeWS x := by
  have hmem : ∀ (k : Char), k ≠ ' ' → k ∉ x → k ∉ normalizeWS x := by
    intro k hksp hkx hk
    rcases mem_normalizeWS hk with h | h
    · exact hkx h
    · exact hksp h
  have hW : containsSeq weirdKey (normalizeWS x) = false := by
    by_contra hc
    rw [Bool.not_eq_false] at hc
    have hws : containsSeq [' ', ' '] weirdKey = true :=
      (containsSeq_iff _ _).mpr ⟨[':', ' ', '\x22', '\x27', '\x22', ','],
        [' ', ' ', ' ', ' ', ' ', ' ', ' ', ' ', '#', ' ', 'S', 'm', 'a', 'r', 't', ' ', 'a', 'p', 'o', 's', 't', 'r', 'o', 'p', 'h', 'e', ' ', 'l', 'e', 'f', 't', '\n', ' ', ' ', ' ', ' '], rfl⟩
    have hss : containsSeq [' ', ' '] (normalizeWS x) = true :=
      containsSeq_trans hws hc
    exact absurd hss (ne_true_of_eq_false
      (not_containsSeq_double_space (normalizeWS_chain' x)))
  show CLEANABLE_CHARS.foldl _ _ = _
  simp only [CLEANABLE_CHARS, List.foldl_cons, List.foldl_nil]
  rw [replaceList_single_id '™' _ _ (hmem '™' (by decide) h1),
    replaceList_single_id '®' _ _ (hmem '®' (by decide) h2),
    replaceList_single_id '©' _ _ (hmem '©' (by decide) h3),
    replaceList_single_self '\x22' _,
    replaceList_id_of_not_contains _ hW,
    replaceList_single_id '–' _ _ (hmem '–' (by decide) h4),
    replaceList_single_id '—' _ _ (hmem '—' (by decide) h5),
    replaceList_single_id '…' _ _ (hmem '…' (by decide) h6),
    replaceList_single_id '\u200B' _ _ (hmem '\u200B' (by decide) h7),
    replaceList_single_id '\uFEFF' _ _ (hmem '\uFEFF' (by decide) h8),
    replaceList_single_id '_' _ _ (hmem '_' (by decide) h9)]

theorem applyCleanable_cleanChars (l : List Char) :
    applyCleanable (cleanChars l) = cleanChars l :=
  applyCleanable_normalizeWS_of (applyCleanable l)
    (tm_not_mem_applyCleanable l) (reg_not_mem_applyCleanable l)
    (copy_not_mem_applyCleanable l) (endash_not_mem_applyCleanable l)
    (emdash_not_mem_applyCleanable l) (ellipsis_not_mem_applyCleanable l)
    (zwsp_not_mem_applyCleanable l) (bom_not_mem_applyCleanable l)
    (underscore_not_mem_applyCleanable l)

theorem cleanChars_idem (l : List Char) :
    cleanChars (cleanChars l) = cleanChars l := by
  have hu : cleanChars (cleanChars l) =
      normalizeWS (applyCleanable (cleanChars l)) := rfl
  rw [hu, applyCleanable_cleanChars l]
  have hu2 : cleanChars l = normalizeWS (applyCleanable l) := rfl
  rw [hu2, normalizeWS_idem]

/-! ### Claim theorems -/

/-- C4: `clean_text` returns the empty string on a missing value, coerces
every other value to text and cleans it (so non-strings behave as their
text rendering), and on the two reference inputs produces exactly the
normalization the specification promises: the trademark sign is removed,
dashes become hyphens, the underscore becomes a space and whitespace runs
collapse. -/
theorem C4_clean_text_normalization :
    clean_text Value.na = "" ∧
    (∀ r : String, clean_text (Value.other r) = clean_text (Value.str r)) ∧
    clean_text (Value.str "café™ — test_run") = "café - test run" ∧
    clean_text (Value.str "2020–2021") = "2020-2021" :=
  ⟨rfl, fun _ => rfl, by decide, by decide⟩

/-- C5: classification is total on arbitrary cell content: `clean_text`
and `detect_unclenable_chars` are total functions producing a result for
every value, and the issue list never exceeds the seven fixed rules. -/
theorem C5_classification_total (v : Value) :
    (∃ s, clean_text v = s) ∧
    (∃ issues, detect_unclenable_chars v = issues) ∧
    (detect_unclenable_chars v).length ≤ 7 := by
  refine ⟨⟨_, rfl⟩, ⟨_, rfl⟩, ?_⟩
  cases v with
  | na => simp [detect_unclenable_chars]
  | str s => exact List.length_filterMap_le _ _
  | other r => exact List.length_filterMap_le _ _

/-- C7: the normalization of `clean_text` is idempotent on every string:
cleaning an already-cleaned value changes nothing. -/
theorem C7_normalize_idempotent (x : String) :
    clean_text (Value.str (clean_text (Value.str x))) =
      clean_text (Value.str x) := by
  show (cleanChars (String.toList ((cleanChars x.toList).asString))).asString = _
  rw [List.toList_asString, cleanChars_idem]
  rfl

/-- C1: `process_dataframe` performs a strict, stable partition of the
rows: clean and dirty row counts sum to the original count, the original
index labels of the two outputs are a permutation of all original indices
(no row dropped or duplicated), each output preserves the original
relative order (its label list is a sublist of `range`), and no index
appears in both outputs. -/
theorem C1_partition_strict_stable (df : DataFrame) :
    ((process_dataframe df).clean_df.length +
        (process_dataframe df).dirty_df.length = df.rows.length) ∧
    ((process_dataframe df).clean_df.map Prod.fst ++
        (process_dataframe df).dirty_df.map Prod.fst).Perm
      (List.range df.rows.length) ∧
    List.Sublist ((process_dataframe df).clean_df.map Prod.fst)
      (List.range df.rows.length) ∧
    List.Sublist ((process_dataframe df).dirty_df.map Prod.fst)
      (List.range df.rows.length) ∧
    (∀ i, i ∈ (process_dataframe df).clean_df.map Prod.fst →
        i ∉ (process_dataframe df).dirty_df.map Prod.fst) := by
  have hclean : (process_dataframe df).clean_df.map Prod.fst =
      (df.rows.enum.filter (fun p => !rowIsDirty df p.2)).map Prod.fst := by
    show (List.map _ _).map Prod.fst = _
    rw [List.map_map]
    rfl
  have hdirty : (process_dataframe df).dirty_df.map Prod.fst =
      (df.rows.enum.filter (fun p => rowIsDirty df p.2)).map Prod.fst := rfl
  have hperm : ((process_dataframe df).clean_df.map Prod.fst ++
      (process_dataframe df).dirty_df.map Prod.fst).Perm
        (List.range df.rows.length) := by
    rw [hclean, hdirty]
    have h1 := List.filter_append_perm
      (fun p : Nat × List Value => !rowIsDirty df p.2) df.rows.enum
    simp only [Bool.not_not] at h1
    have h2 := h1.map Prod.fst
    rw [List.map_append, List.enum_map_fst] at h2
    exact h2
  refine ⟨?_, hperm, ?_, ?_, ?_⟩
  · have hlen := hperm.length_eq
    simp only [List.length_append, List.length_map, List.length_range] at hlen
    simpa using hlen
  · rw [hclean, ← List.enum_map_fst df.rows]
    exact List.Sublist.map Prod.fst (List.filter_sublist _)
  · rw [hdirty, ← List.enum_map_fst df.rows]
    exact List.Sublist.map Prod.fst (List.filter_sublist _)
  · have hnd : ((process_dataframe df).clean_df.map Prod.fst ++
        (process_dataframe df).dirty_df.map Prod.fst).Nodup :=
      hperm.symm.nodup (List.nodup_range _)
    have hdisj := List.disjoint_of_nodup_append hnd
    intro i hi
    exact hdisj hi

/-- Closed instance of `C1_partition_strict_stable`: on a dataframe with
one clean and one dirty row, the clean row index 0 is absent from the
dirty table. -/
theorem C1_partition_witness :
    0 ∉ (process_dataframe dfC1w).dirty_df.map Prod.fst :=
  (C1_partition_strict_stable dfC1w).2.2.2.2 0 (by decide)

/-- C2 counterexample: on a dataframe whose only column is non-string
(numeric), the column report of `process_dataframe` is empty — the
non-textual column is omitted, not marked "not applicable", so not every
input column has an entry. -/
theorem C2_counterexample_nonstring_omitted :
    ¬ (∀ name ∈ dfC2x.cols.map Prod.fst,
        ∃ e ∈ (process_dataframe dfC2x).column_analysis, e.1 = name) := by
  intro h
  rcases h "n" (by decide) with ⟨e, he, _⟩
  have hempty : (process_dataframe dfC2x).column_analysis = [] := rfl
  rw [hempty] at he
  exact List.not_mem_nil e he

/-- C2 amended: the column report covers exactly the string-typed
(`object`-dtype) columns, in order, each tagged with type `"string"`;
columns of any other dtype are omitted from the report entirely. -/
theorem C2_column_report_object_only (df : DataFrame) :
    ((process_dataframe df).column_analysis.map Prod.fst =
      (df.cols.filter (fun c => c.2)).map Prod.fst) ∧
    ∀ e ∈ (process_dataframe df).column_analysis, e.2.type = "string" := by
  have key : ∀ (n : Nat) (cols : List (String × Bool)),
      (((List.enumFrom n cols).filterMap (fun q =>
          if q.2.2 then
            some (q.2.1, ColReport.mk "string" (colHasIssues df q.1))
          else none)).map Prod.fst =
        (cols.filter (fun c => c.2)).map Prod.fst) ∧
      ∀ e ∈ (List.enumFrom n cols).filterMap (fun q =>
          if q.2.2 then
            some (q.2.1, ColReport.mk "string" (colHasIssues df q.1))
          else none), e.2.type = "string" := by
    intro n cols
    induction cols generalizing n with
    | nil => exact ⟨rfl, by simp⟩
    | cons c cs ih =>
      rw [List.enumFrom_cons, List.filterMap_cons]
      by_cases hc : c.2 = true
      · rw [if_pos (by simpa using hc)]
        refine ⟨?_, ?_⟩
        · rw [List.map_cons, List.filter_cons, if_pos (by simpa using hc),
            List.map_cons, (ih (n + 1)).1]
        · intro e he
          rcases List.mem_cons.mp he with rfl | h2
          · rfl
          · exact (ih (n + 1)).2 e h2
      · rw [if_neg (by simpa using hc)]
        refine ⟨?_, (ih (n + 1)).2⟩
        rw [(ih (n + 1)).1, List.filter_cons, if_neg (by simpa using hc)]
  have h0 := key 0 df.cols
  exact h0

/-- Closed instance of `C2_column_report_object_only`: the single entry of
the report of a one-string-column dataframe is tagged `"string"`. -/
theorem C2_column_report_witness :
    (("a", ColReport.mk "string" false) : String × ColReport).2.type =
      "string" :=
  (C2_column_report_object_only dfC2w).2 ("a", ColReport.mk "string" false)
    (by decide)

/-- C3: dirty rows are reported, never mutated — every row of the dirty
table is byte-for-byte the original row at its index — while every row of
the clean table is the original row at its index with `clean_text` applied
to each cell of a string-typed (`object`) column and all other cells left
untouched. -/
theorem C3_dirty_untouched_clean_normalized (df : DataFrame) :
    (∀ p ∈ (process_dataframe df).dirty_df, df.rows.get? p.1 = some p.2) ∧
    (∀ p ∈ (process_dataframe df).clean_df, ∃ r,
      df.rows.get? p.1 = some r ∧
      ∀ j name isObj, df.cols.get? j = some (name, isObj) →
        p.2.get? j = (r.get? j).map
          (fun v => if isObj then Value.str (clean_text v) else v)) := by
  constructor
  · rintro ⟨i, r⟩ hp
    have hmem : (i, r) ∈ df.rows.enum :=
      List.mem_of_mem_filter hp
    exact List.mk_mem_enum_iff_get?.mp hmem
  · rintro ⟨i, r'⟩ hp
    rcases List.mem_map.mp hp with ⟨⟨i0, r⟩, hq, heq⟩
    have hi : i0 = i := congrArg Prod.fst heq
    subst hi
    have hr' : r' = normalizeRow df r := (congrArg Prod.snd heq).symm
    refine ⟨r, List.mk_mem_enum_iff_get?.mp (List.mem_of_mem_filter hq), ?_⟩
    intro j name isObj hj
    subst hr'
    show (List.zipWith _ df.cols r).get? j = _
    rw [List.get?_eq_getElem?, List.get?_eq_getElem?, List.getElem?_zipWith]
    rw [← List.get?_eq_getElem? df.cols, hj]
    cases hr : r[j]? with
    | none => rfl
    | some v => rfl

/-- Closed instance of `C3_dirty_untouched_clean_normalized`: the dirty
row of `dfC3w` appears in the dirty table exactly as in the input. -/
theorem C3_frame_witness :
    dfC3w.rows.get? 1 = some [Value.str "a\x00", Value.other "2"] :=
  (C3_dirty_untouched_clean_normalized dfC3w).1
    (1, [Value.str "a\x00", Value.other "2"]) (by decide)

/-- C6: any row holding a string cell that contains a NUL byte is
classified dirty, and on the reference value `"abc\x00def"` the detector
reports exactly one issue, named `null_char` with count 1 — the NUL byte
matches no other rule (the control-character class starts at `\x01`). -/
theorem C6_nul_byte_row_dirty (df : DataFrame) (i : Nat) (r : List Value)
    (s : String)
    (hget : df.rows.get? i = some r)
    (hcell : ∃ p ∈ df.cols.zip r, p.2 = Value.str s)
    (hnul : '\x00' ∈ s.toList) :
    i ∈ (process_dataframe df).dirty_df.map Prod.fst ∧
    (detect_unclenable_chars (Value.str "abc\x00def")).map
      (fun iss => (iss.type, iss.count)) = [("null_char", 1)] := by
  refine ⟨?_, by decide⟩
  have hdet : detect_unclenable_chars (Value.str s) ≠ [] := by
    intro hd
    have hall := List.filterMap_eq_nil_iff.mp hd
    have hnull := hall ⟨"null_char", fun c => c.toNat = 0x0,
      "NULL character - Binary data corruption", "\\x00"⟩
      (List.mem_cons_self _ _)
    have hms : '\x00' ∈ s.toList.filter (fun c => decide (c.toNat = 0x0)) :=
      List.mem_filter.mpr ⟨hnul, by decide⟩
    have hne : ¬(s.toList.filter (fun c => decide (c.toNat = 0x0))).isEmpty := by
      rw [List.isEmpty_iff]
      intro he
      rw [he] at hms
      exact List.not_mem_nil _ hms
    dsimp only [str_of] at hnull
    rw [if_neg hne] at hnull
    exact Option.some_ne_none _ hnull
  have hrow : row_issues df r ≠ [] := by
    intro hri
    have hall := List.filterMap_eq_nil_iff.mp hri
    rcases hcell with ⟨p, hpmem, hpstr⟩
    have hp := hall p hpmem
    rw [hpstr] at hp
    dsimp only at hp
    rw [if_neg (by simpa [List.isEmpty_iff] using hdet)] at hp
    exact Option.some_ne_none _ hp
  have hdirtyrow : rowIsDirty df r = true := by
    simp [rowIsDirty, List.isEmpty_iff, hrow]
  have henum : (i, r) ∈ df.rows.enum := List.mk_mem_enum_iff_get?.mpr hget
  have hfil : (i, r) ∈ df.rows.enum.filter (fun p => rowIsDirty df p.2) :=
    List.mem_filter.mpr ⟨henum, hdirtyrow⟩
  exact List.mem_map.mpr ⟨(i, r), hfil, rfl⟩

/-- Closed instance of `C6_nul_byte_row_dirty` on the one-row dataframe
holding `"abc\x00def"`. -/
theorem C6_nul_byte_witness :
    0 ∈ (process_dataframe dfC6w).dirty_df.map Prod.fst ∧
    (detect_unclenable_chars (Value.str "abc\x00def")).map
      (fun iss => (iss.type, iss.count)) = [("null_char", 1)] :=
  C6_nul_byte_row_dirty dfC6w 0 [Value.str "abc\x00def"] "abc\x00def" rfl
    (by decide) (by decide)

/-- C8: for a string-typed column (position `j`, unique column names as
pandas requires for `df[col]` selection), the column report holds an entry
for it whose flag is true exactly when some non-missing cell of that
column in the original dataframe — independent of the row partition and of
other columns — stringifies to a value with an unclenable character. -/
theorem C8_column_flag_iff (df : DataFrame) (j : Nat) (name : String)
    (hnodup : (df.cols.map Prod.fst).Nodup)
    (hj : df.cols.get? j = some (name, true)) :
    ∃ flag,
      (name, ColReport.mk "string" flag) ∈
        (process_dataframe df).column_analysis ∧
      (flag = true ↔ ∃ v ∈ colValues df j, v ≠ Value.na ∧
        has_unclenable_chars (Value.str (str_of v)) = true) := by
  refine ⟨colHasIssues df j, ?_, ?_⟩
  · have henum : (j, (name, true)) ∈ df.cols.enum :=
      List.mk_mem_enum_iff_get?.mpr hj
    exact List.mem_filterMap.mpr ⟨(j, (name, true)), henum, by simp⟩
  · constructor
    · intro hfl
      rcases List.any_eq_true.mp hfl with ⟨v, hv, hg⟩
      rcases List.mem_filter.mp hv with ⟨hv1, hv2⟩
      refine ⟨v, hv1, ?_, hg⟩
      intro hna
      rw [hna] at hv2
      simp [Value.isNa] at hv2
    · rintro ⟨v, hv, hna, hg⟩
      apply List.any_eq_true.mpr
      refine ⟨v, List.mem_filter.mpr ⟨hv, ?_⟩, hg⟩
      cases v with
      | na => exact absurd rfl hna
      | str s => simp [Value.isNa]
      | other r => simp [Value.isNa]

/-- Closed instance of `C8_column_flag_iff` on a dataframe whose string
column holds one clean and one corrupt value. -/
theorem C8_column_flag_witness :
    ∃ flag,
      ("a", ColReport.mk "string" flag) ∈
        (process_dataframe dfC8w).column_analysis ∧
      (flag = true ↔ ∃ v ∈ colValues dfC8w 0, v ≠ Value.na ∧
        has_unclenable_chars (Value.str (str_of v)) = true) :=
  C8_column_flag_iff dfC8w 0 "a" (by decide) rfl

/-- C9: a parse failure reaches the handler's except-arm untouched — the
result is the error envelope, carrying no counts and no partial tables —
while a parseable input whose rows are all dirty is a normal success:
status SUCCESS with zero clean rows and `dirtyRowCount = originalRowCount`. -/
theorem C9_parse_error_vs_all_dirty :
    (∀ e : String, CleanDataFunction (Except.error e) = HttpOutcome.error e) ∧
    (∀ df : DataFrame, (∀ r ∈ df.rows, rowIsDirty df r = true) →
      ∃ body, CleanDataFunction (Except.ok df) = HttpOutcome.success body ∧
        body.cleanRowCount = 0 ∧
        body.originalRowCount = df.rows.length ∧
        body.dirtyRowCount = body.originalRowCount) := by
  constructor
  · intro e
    rfl
  · intro df hall
    refine ⟨_, rfl, ?_, rfl, ?_⟩
    · show ((df.rows.enum.filter _).map _).length = 0
      rw [List.length_map, List.length_eq_zero]
      apply List.filter_eq_nil_iff.mpr
      rintro ⟨i, r⟩ hp
      have hr : r ∈ df.rows :=
        List.mem_iff_get?.mpr ⟨i, List.mk_mem_enum_iff_get?.mp hp⟩
      simp [hall r hr]
    · show (df.rows.enum.filter _).length = df.rows.length
      rw [List.filter_eq_self.mpr, List.enum_length]
      rintro ⟨i, r⟩ hp
      exact hall r (List.mem_iff_get?.mpr ⟨i, List.mk_mem_enum_iff_get?.mp hp⟩)

/-- Closed instance of `C9_parse_error_vs_all_dirty`: the all-dirty
one-row dataframe yields a success body with zero clean rows. -/
theorem C9_all_dirty_witness :
    ∃ body, CleanDataFunction (Except.ok dfC9w) = HttpOutcome.success body ∧
      body.cleanRowCount = 0 ∧
      body.originalRowCount = dfC9w.rows.length ∧
      body.dirtyRowCount = body.originalRowCount :=
  C9_parse_error_vs_all_dirty.2 dfC9w (by decide)

/-- C10: the dirty-row scan inspects only cells that are `str` instances —
a row none of whose cells is a string is always classified clean — while
the column analysis stringifies every non-missing value of an
`object`-dtype column; hence a dataframe exists whose column report flags
a column although its dirty table is empty. -/
theorem C10_row_scan_str_instances_only :
    (∀ (df : DataFrame) (i : Nat) (r : List Value),
      df.rows.get? i = some r →
      (∀ p ∈ df.cols.zip r, p.2.isStr = false) →
      i ∈ (process_dataframe df).clean_df.map Prod.fst) ∧
    (∃ df : DataFrame, (process_dataframe df).dirty_df = [] ∧
      ∃ e ∈ (process_dataframe df).column_analysis,
        e.2.had_unclenable_chars = true) := by
  constructor
  · intro df i r hget hnostr
    have hri : row_issues df r = [] := by
      apply List.filterMap_eq_nil_iff.mpr
      intro p hp
      have := hnostr p hp
      cases hv : p.2 with
      | na => rfl
      | str s => rw [hv] at this; simp [Value.isStr] at this
      | other t => rfl
    have hclean : rowIsDirty df r = false := by
      simp [rowIsDirty, hri]
    have henum : (i, r) ∈ df.rows.enum := List.mk_mem_enum_iff_get?.mpr hget
    have hfil : (i, r) ∈ df.rows.enum.filter (fun p => !rowIsDirty df p.2) :=
      List.mem_filter.mpr ⟨henum, by simp [hclean]⟩
    exact List.mem_map.mpr
      ⟨(i, normalizeRow df r), List.mem_map.mpr ⟨(i, r), hfil, rfl⟩, rfl⟩
  · exact ⟨dfC10b, by decide,
      ("a", ColReport.mk "string" true), by decide, rfl⟩

/-- Closed instance of `C10_row_scan_str_instances_only`: a row holding
only a non-string object and a missing value is classified clean. -/
theorem C10_row_scan_witness :
    0 ∈ (process_dataframe dfC10a).clean_df.map Prod.fst :=
  C10_row_scan_str_instances_only.1 dfC10a 0 [Value.other "x"] rfl (by decide)

end CleanData
